import Mathlib

/-!
Verification of the statistical computation engine of `analisis_estadistico.py`
(class `AnalizadorEstadistico`): the frequency-table builder
`calcular_tabla_frecuencias` and the descriptive-statistics calculator
`calcular_estadisticas_descriptivas`.

Numeric values are embedded as rationals (exact arithmetic standing for the
Python floats); `NaN` results produced by the pandas library on degenerate
inputs are embedded as `Option.none`.
-/

set_option maxRecDepth 4000

namespace AnalisisEstadistico

/-- Minimum of a list of rationals, mirroring `datos.min()` on a non-empty
pandas series (the value on `[]` is junk; pandas returns NaN there, which is
handled at the call sites that can see an empty series). -/
def listMin : List ℚ → ℚ
  | [] => 0
  | x :: xs => xs.foldl min x

/-- Maximum of a list of rationals, mirroring `datos.max()`. -/
def listMax : List ℚ → ℚ
  | [] => 0
  | x :: xs => xs.foldl max x

/-- The class width `amplitud = rango / num_clases` computed at line 83 of the
source, with `rango = max - min`. -/
def amplitud (datos : List ℚ) (k : ℕ) : ℚ :=
  (listMax datos - listMin datos) / k

/-- Lower bound `li = min_val + i * amplitud` of interval `i` (line 91). -/
def limiteInferior (datos : List ℚ) (k i : ℕ) : ℚ :=
  listMin datos + i * amplitud datos k

/-- Upper bound `ls = min_val + (i + 1) * amplitud` of interval `i` (line 92). -/
def limiteSuperior (datos : List ℚ) (k i : ℕ) : ℚ :=
  listMin datos + (i + 1) * amplitud datos k

/-- The membership test of lines 99-104 of the source, abstracted over the
series minimum `m` and the width `w`: interval `i` of `k` receives `v` when
`m + i*w <= v < m + (i+1)*w`, except that the last interval (`i == k - 1`,
an index comparison) also receives its upper endpoint. -/
def enClase (m w : ℚ) (k i : ℕ) (v : ℚ) : Bool :=
  if i = k - 1 then
    decide (m + i * w ≤ v) && decide (v ≤ m + (i + 1) * w)
  else
    decide (m + i * w ≤ v) && decide (v < m + (i + 1) * w)

/-- Membership of a value in interval `i` of the table built from `datos`
with `k` classes. -/
def enIntervalo (datos : List ℚ) (k i : ℕ) (v : ℚ) : Bool :=
  enClase (listMin datos) (amplitud datos k) k i v

/-- Absolute frequency of interval `i`: the count computed at lines 101/103
by summing the boolean mask over the series. -/
def frecuencia (datos : List ℚ) (k i : ℕ) : ℕ :=
  datos.countP (enIntervalo datos k i)

/-- Cumulative absolute frequency, `np.cumsum(frecuencias)` at line 115:
the prefix sum of the absolute frequencies through interval `i`. -/
def frecuenciaAcumulada (datos : List ℚ) (k i : ℕ) : ℕ :=
  ((List.range (i + 1)).map (fun j => frecuencia datos k j)).sum

/-- One row of the frequency-table DataFrame built at lines 107-117. -/
structure ClassInterval where
  li : ℚ
  ls : ℚ
  marca : ℚ
  fi : ℕ
  hi : ℚ
  pct : ℚ
  Fi : ℕ
  Hi : ℚ
deriving DecidableEq

/-- The frequency table for a resolved class count `k`: one `ClassInterval`
per `i in range(num_clases)`, with the fields of the DataFrame of
lines 107-117 (`n = len(datos)`). -/
def tablaFrecuencias (datos : List ℚ) (k : ℕ) : List ClassInterval :=
  (List.range k).map (fun i =>
    { li := limiteInferior datos k i
      ls := limiteSuperior datos k i
      marca := (limiteInferior datos k i + limiteSuperior datos k i) / 2
      fi := frecuencia datos k i
      hi := (frecuencia datos k i : ℚ) / datos.length
      pct := (frecuencia datos k i : ℚ) / datos.length * 100
      Fi := frecuenciaAcumulada datos k i
      Hi := ((List.range (i + 1)).map
        (fun j => (frecuencia datos k j : ℚ) / datos.length)).sum })

/-- Sturges' rule of line 77: `int(np.ceil(1 + 3.322 * np.log10(n)))`,
for `n >= 1` (at `n = 0` the Python expression raises, see
`numClasesPorDefecto`). -/
noncomputable def sturges (n : ℕ) : ℕ :=
  (Int.ceil ((1 : ℝ) + 3.322 * Real.logb 10 n)).toNat

/-- The Python exceptions the embedded code can raise. -/
inductive PyError where
  | overflowError : PyError
deriving DecidableEq

/-- The default class-count computation of lines 76-77. On an empty series
`np.log10(0)` evaluates to `-inf` (a warning, not an error) and
`int(np.ceil(-inf))` raises `OverflowError`; otherwise the rule of Sturges
applies. -/
noncomputable def numClasesPorDefecto (n : ℕ) : Except PyError ℕ :=
  if n = 0 then .error .overflowError else .ok (sturges n)

/-- The full builder `calcular_tabla_frecuencias(self, num_clases=None)`
(lines 65-124): an explicitly supplied class count is used as given, with no
validation of any kind; otherwise the count comes from Sturges' rule. -/
noncomputable def calcular_tabla_frecuencias (datos : List ℚ)
    (numClases : Option ℕ) : Except PyError (List ClassInterval) :=
  match numClases with
  | some k => .ok (tablaFrecuencias datos k)
  | none => (numClasesPorDefecto datos.length).map (tablaFrecuencias datos)

set_option maxHeartbeats 2000000 in
/-- C8: for the series `[1,...,10]` with explicit class count 5 the builder
produces width 1.8, intervals `[1,2.8), [2.8,4.6), [4.6,6.4), [6.4,8.2),
[8.2,10]`, absolute frequencies `[2,2,2,2,2]` and cumulative absolute
frequencies `[2,4,6,8,10]`. -/
theorem tabla_ejemplo_diez_valores :
    amplitud [1, 2, 3, 4, 5, 6, 7, 8, 9, 10] 5 = 1.8 ∧
    (tablaFrecuencias [1, 2, 3, 4, 5, 6, 7, 8, 9, 10] 5).map
        (fun I => (I.li, I.ls)) =
      [(1, 2.8), (2.8, 4.6), (4.6, 6.4), (6.4, 8.2), (8.2, 10)] ∧
    (tablaFrecuencias [1, 2, 3, 4, 5, 6, 7, 8, 9, 10] 5).map
        (fun I => I.fi) = [2, 2, 2, 2, 2] ∧
    (tablaFrecuencias [1, 2, 3, 4, 5, 6, 7, 8, 9, 10] 5).map
        (fun I => I.Fi) = [2, 4, 6, 8, 10] := by
  refine ⟨?_, ?_, ?_, ?_⟩ <;>
    norm_num [tablaFrecuencias, List.range_succ, frecuencia, frecuenciaAcumulada,
      enIntervalo, enClase, limiteInferior, limiteSuperior, amplitud,
      listMin, listMax, min_def, max_def, List.countP, List.countP.go]

/-! Basic facts about the series extremes and the class width. -/

lemma foldl_min_le_init (l : List ℚ) (a : ℚ) : l.foldl min a ≤ a := by
  induction l generalizing a with
  | nil => simp
  | cons x xs ih => exact le_trans (ih (min a x)) (min_le_left a x)

lemma foldl_min_le_mem (l : List ℚ) (a : ℚ) : ∀ x ∈ l, l.foldl min a ≤ x := by
  induction l generalizing a with
  | nil => simp
  | cons y ys ih =>
    intro x hx
    rcases List.mem_cons.mp hx with rfl | hx
    · exact le_trans (foldl_min_le_init ys (min a x)) (min_le_right a x)
    · exact ih (min a y) x hx

lemma foldl_min_mem_or (l : List ℚ) (a : ℚ) :
    l.foldl min a = a ∨ l.foldl min a ∈ l := by
  induction l generalizing a with
  | nil => exact Or.inl rfl
  | cons x xs ih =>
    rcases ih (min a x) with h | h
    · rcases min_choice a x with hm | hm
      · exact Or.inl (by rw [List.foldl_cons, h, hm])
      · exact Or.inr (by rw [List.foldl_cons, h, hm]; exact List.mem_cons_self x xs)
    · exact Or.inr (List.mem_cons_of_mem x h)

lemma init_le_foldl_max (l : List ℚ) (a : ℚ) : a ≤ l.foldl max a := by
  induction l generalizing a with
  | nil => simp
  | cons x xs ih => exact le_trans (le_max_left a x) (ih (max a x))

lemma mem_le_foldl_max (l : List ℚ) (a : ℚ) : ∀ x ∈ l, x ≤ l.foldl max a := by
  induction l generalizing a with
  | nil => simp
  | cons y ys ih =>
    intro x hx
    rcases List.mem_cons.mp hx with rfl | hx
    · exact le_trans (le_max_right a x) (init_le_foldl_max ys (max a x))
    · exact ih (max a y) x hx

lemma foldl_max_mem_or (l : List ℚ) (a : ℚ) :
    l.foldl max a = a ∨ l.foldl max a ∈ l := by
  induction l generalizing a with
  | nil => exact Or.inl rfl
  | cons x xs ih =>
    rcases ih (max a x) with h | h
    · rcases max_choice a x with hm | hm
      · exact Or.inl (by rw [List.foldl_cons, h, hm])
      · exact Or.inr (by rw [List.foldl_cons, h, hm]; exact List.mem_cons_self x xs)
    · exact Or.inr (List.mem_cons_of_mem x h)

lemma listMin_le (datos : List ℚ) : ∀ x ∈ datos, listMin datos ≤ x := by
  cases datos with
  | nil => simp
  | cons x xs =>
    intro y hy
    rcases List.mem_cons.mp hy with rfl | hy
    · exact foldl_min_le_init xs y
    · exact foldl_min_le_mem xs x y hy

lemma le_listMax (datos : List ℚ) : ∀ x ∈ datos, x ≤ listMax datos := by
  cases datos with
  | nil => simp
  | cons x xs =>
    intro y hy
    rcases List.mem_cons.mp hy with rfl | hy
    · exact init_le_foldl_max xs y
    · exact mem_le_foldl_max xs x y hy

lemma listMin_mem (datos : List ℚ) (h : datos ≠ []) : listMin datos ∈ datos := by
  cases datos with
  | nil => exact absurd rfl h
  | cons x xs =>
    rcases foldl_min_mem_or xs x with hm | hm
    · rw [listMin, hm]; exact List.mem_cons_self x xs
    · exact List.mem_cons_of_mem x hm

lemma listMax_mem (datos : List ℚ) (h : datos ≠ []) : listMax datos ∈ datos := by
  cases datos with
  | nil => exact absurd rfl h
  | cons x xs =>
    rcases foldl_max_mem_or xs x with hm | hm
    · rw [listMax, hm]; exact List.mem_cons_self x xs
    · exact List.mem_cons_of_mem x hm

lemma listMin_le_listMax (datos : List ℚ) (h : datos ≠ []) :
    listMin datos ≤ listMax datos :=
  le_trans (listMin_le datos _ (listMax_mem datos h)) (le_refl _)

lemma amplitud_nonneg (datos : List ℚ) (k : ℕ) (h : datos ≠ []) :
    0 ≤ amplitud datos k :=
  div_nonneg (sub_nonneg.mpr (listMin_le_listMax datos h)) (Nat.cast_nonneg k)

lemma limiteSuperior_last (datos : List ℚ) (k : ℕ) (hk : 1 ≤ k) :
    limiteSuperior datos k (k - 1) = listMax datos := by
  have hk0 : (k : ℚ) ≠ 0 := Nat.cast_ne_zero.mpr (by omega)
  rw [limiteSuperior, amplitud, Nat.cast_sub hk]
  field_simp

lemma limiteInferior_last_le (datos : List ℚ) (k : ℕ) (hd : datos ≠ [])
    (hk : 1 ≤ k) : limiteInferior datos k (k - 1) ≤ listMax datos := by
  have h1 : limiteSuperior datos k (k - 1) =
      limiteInferior datos k (k - 1) + amplitud datos k := by
    rw [limiteInferior, limiteSuperior]; ring
  have h2 := amplitud_nonneg datos k hd
  have h3 := limiteSuperior_last datos k hk
  linarith

/-- C1: membership of a value in interval `i` is a half-open test
`lowerBound <= v < upperBound` for every interval except the last, a closed
test `lowerBound <= v <= upperBound` for the last interval, selected by the
index comparison `i == k - 1`; consequently the series maximum lands in the
last interval. -/
theorem regla_de_pertenencia (datos : List ℚ) (k : ℕ) (v : ℚ)
    (hd : datos ≠ []) (hk : 1 ≤ k) :
    (∀ i, i < k → i ≠ k - 1 →
      (enIntervalo datos k i v = true ↔
        limiteInferior datos k i ≤ v ∧ v < limiteSuperior datos k i)) ∧
    (enIntervalo datos k (k - 1) v = true ↔
      limiteInferior datos k (k - 1) ≤ v ∧ v ≤ limiteSuperior datos k (k - 1)) ∧
    enIntervalo datos k (k - 1) (listMax datos) = true := by
  have hlast : ∀ w : ℚ, enIntervalo datos k (k - 1) w = true ↔
      limiteInferior datos k (k - 1) ≤ w ∧ w ≤ limiteSuperior datos k (k - 1) := by
    intro w
    simp [enIntervalo, enClase, limiteInferior, limiteSuperior]
  refine ⟨?_, hlast v, ?_⟩
  · intro i _ hine
    simp [enIntervalo, enClase, hine, limiteInferior, limiteSuperior]
  · exact (hlast (listMax datos)).mpr
      ⟨limiteInferior_last_le datos k hd hk,
        le_of_eq (limiteSuperior_last datos k hk).symm⟩

/-- Witness instantiating `regla_de_pertenencia` at the series `[1, 2]` with
two classes and the test value 1. -/
theorem regla_de_pertenencia_testigo :
    (∀ i, i < 2 → i ≠ 2 - 1 →
      (enIntervalo [1, 2] 2 i 1 = true ↔
        limiteInferior [1, 2] 2 i ≤ 1 ∧ (1 : ℚ) < limiteSuperior [1, 2] 2 i)) ∧
    (enIntervalo [1, 2] 2 (2 - 1) 1 = true ↔
      limiteInferior [1, 2] 2 (2 - 1) ≤ 1 ∧
        (1 : ℚ) ≤ limiteSuperior [1, 2] 2 (2 - 1)) ∧
    enIntervalo [1, 2] 2 (2 - 1) (listMax [1, 2]) = true :=
  regla_de_pertenencia [1, 2] 2 1 (by simp) (by norm_num)

/-! Sturges' rule. -/

lemma sturges_eq (n k : ℕ) (h1 : (k : ℝ) - 1 < 1 + 3.322 * Real.logb 10 n)
    (h2 : (1 : ℝ) + 3.322 * Real.logb 10 n ≤ k) : sturges n = k := by
  rw [sturges, show Int.ceil ((1 : ℝ) + 3.322 * Real.logb 10 n) = (k : ℤ) from
    Int.ceil_eq_iff.mpr ⟨by push_cast; exact h1, by push_cast; exact h2⟩]
  simp

lemma sturges_cien : sturges 100 = 8 := by
  have h : Real.logb 10 (100 : ℕ) = 2 := by
    rw [show ((100 : ℕ) : ℝ) = 10 ^ (2 : ℕ) by norm_num, Real.logb_pow,
      Real.logb_self_eq_one (by norm_num)]
    norm_num
  refine sturges_eq 100 8 ?_ ?_ <;> rw [h] <;> norm_num

lemma sturges_uno : sturges 1 = 1 := by
  refine sturges_eq 1 1 ?_ ?_ <;> simp [Real.logb]

lemma logb_diez_tres_bounds :
    (31 / 100 : ℝ) ≤ Real.logb 10 3 ∧ Real.logb 10 3 ≤ 1 / 2 := by
  have hlog10 : (0 : ℝ) < Real.log 10 := Real.log_pos (by norm_num)
  constructor
  · rw [Real.logb, le_div_iff₀ hlog10]
    have h : Real.log ((10 : ℝ) ^ (31 : ℕ)) ≤ Real.log ((3 : ℝ) ^ (100 : ℕ)) := by
      rw [Real.log_le_log_iff (by positivity) (by positivity)]
      norm_num
    rw [Real.log_pow, Real.log_pow] at h
    push_cast at h
    linarith
  · rw [Real.logb, div_le_iff₀ hlog10]
    have h : Real.log ((3 : ℝ) ^ (2 : ℕ)) ≤ Real.log ((10 : ℝ) ^ (1 : ℕ)) := by
      rw [Real.log_le_log_iff (by positivity) (by positivity)]
      norm_num
    rw [Real.log_pow, Real.log_pow] at h
    push_cast at h
    linarith

lemma sturges_tres : sturges 3 = 3 := by
  obtain ⟨hlo, hhi⟩ := logb_diez_tres_bounds
  have h3 : Real.logb 10 (3 : ℕ) = Real.logb 10 3 := by norm_num
  refine sturges_eq 3 3 ?_ ?_ <;> rw [h3] <;> nlinarith

lemma sturges_pos (n : ℕ) (hn : 1 ≤ n) : 1 ≤ sturges n := by
  have h0 : (0 : ℝ) ≤ Real.logb 10 n :=
    Real.logb_nonneg (by norm_num) (by exact_mod_cast hn)
  have h1 : (1 : ℝ) ≤ 1 + 3.322 * Real.logb 10 n := by nlinarith
  have h2 : (1 : ℤ) ≤ Int.ceil ((1 : ℝ) + 3.322 * Real.logb 10 n) := by
    rw [Int.le_ceil_iff]
    push_cast
    linarith
  rw [sturges]
  omega

/-- C7: with no explicit class count, the builder uses Sturges' rule
`ceil(1 + 3.322 * log10 n)` on the series length; the resulting count is
never below 1 for a non-empty series (in particular it is 1 at `n = 1`),
and it equals 8 at `n = 100`. -/
theorem regla_de_sturges (datos : List ℚ) (hd : datos ≠ []) :
    calcular_tabla_frecuencias datos none =
      .ok (tablaFrecuencias datos (sturges datos.length)) ∧
    1 ≤ sturges datos.length ∧
    sturges 100 = 8 ∧ sturges 1 = 1 := by
  have hn : datos.length ≠ 0 := by
    simpa [List.length_eq_zero] using hd
  refine ⟨?_, sturges_pos _ (by omega), sturges_cien, sturges_uno⟩
  rw [calcular_tabla_frecuencias, numClasesPorDefecto, if_neg hn]
  rfl

/-- Witness instantiating `regla_de_sturges` at the one-element series
`[7]`. -/
theorem regla_de_sturges_testigo :
    calcular_tabla_frecuencias [7] none =
      .ok (tablaFrecuencias [7] (sturges (List.length [7]))) ∧
    1 ≤ sturges (List.length [(7 : ℚ)]) ∧
    sturges 100 = 8 ∧ sturges 1 = 1 :=
  regla_de_sturges [7] (by simp)

/-! Every series value falls in exactly one interval: the partition
argument behind the frequency-sum invariant. -/

lemma enClase_not_last_iff (m w : ℚ) (hw : 0 < w) (k i : ℕ) (hi : i ≠ k - 1)
    (v : ℚ) : enClase m w k i v = true ↔
      (i : ℚ) ≤ (v - m) / w ∧ (v - m) / w < i + 1 := by
  simp only [enClase, if_neg hi, Bool.and_eq_true, decide_eq_true_eq]
  constructor
  · rintro ⟨h1, h2⟩
    exact ⟨by rw [le_div_iff₀ hw]; linarith, by rw [div_lt_iff₀ hw]; linarith⟩
  · rintro ⟨h1, h2⟩
    rw [le_div_iff₀ hw] at h1
    rw [div_lt_iff₀ hw] at h2
    constructor <;> linarith

lemma enClase_last_iff (m w : ℚ) (hw : 0 < w) (k : ℕ) (hk : 1 ≤ k) (v : ℚ) :
    enClase m w k (k - 1) v = true ↔
      (k : ℚ) - 1 ≤ (v - m) / w ∧ (v - m) / w ≤ k := by
  have hcast : ((k - 1 : ℕ) : ℚ) = (k : ℚ) - 1 := by
    rw [Nat.cast_sub hk]; norm_num
  unfold enClase
  rw [if_pos rfl]
  simp only [Bool.and_eq_true, decide_eq_true_eq, hcast]
  constructor
  · rintro ⟨h1, h2⟩
    exact ⟨by rw [le_div_iff₀ hw]; linarith, by rw [div_le_iff₀ hw]; linarith⟩
  · rintro ⟨h1, h2⟩
    rw [le_div_iff₀ hw] at h1
    rw [div_le_iff₀ hw] at h2
    constructor <;> linarith

lemma card_filter_enClase_pos (m w : ℚ) (hw : 0 < w) (k : ℕ) (hk : 1 ≤ k)
    (v : ℚ) (hv1 : m ≤ v) (hv2 : v ≤ m + k * w) :
    ((Finset.range k).filter (fun i => enClase m w k i v = true)).card = 1 := by
  have ht0 : 0 ≤ (v - m) / w := div_nonneg (by linarith) hw.le
  have htk : (v - m) / w ≤ k := by rw [div_le_iff₀ hw]; linarith
  rw [Finset.card_eq_one]
  by_cases hcase : (k : ℚ) - 1 ≤ (v - m) / w
  · refine ⟨k - 1, ?_⟩
    ext i
    simp only [Finset.mem_filter, Finset.mem_range, Finset.mem_singleton]
    constructor
    · rintro ⟨hik, hen⟩
      by_contra hne
      obtain ⟨h1, h2⟩ := (enClase_not_last_iff m w hw k i hne v).mp hen
      have hik' : i + 2 ≤ k := by omega
      have : (i : ℚ) + 2 ≤ (k : ℚ) := by exact_mod_cast hik'
      linarith
    · rintro rfl
      exact ⟨by omega, (enClase_last_iff m w hw k hk v).mpr ⟨hcase, htk⟩⟩
  · push_neg at hcase
    have hfl0 : 0 ≤ ⌊(v - m) / w⌋ := Int.floor_nonneg.mpr ht0
    have hi₀z : ((⌊(v - m) / w⌋.toNat : ℕ) : ℤ) = ⌊(v - m) / w⌋ :=
      Int.toNat_of_nonneg hfl0
    have hi₀q : ((⌊(v - m) / w⌋.toNat : ℕ) : ℚ) = (⌊(v - m) / w⌋ : ℚ) := by
      rw [← hi₀z]
      push_cast
      rfl
    have hfl : ((⌊(v - m) / w⌋.toNat : ℕ) : ℚ) ≤ (v - m) / w := by
      rw [hi₀q]; exact Int.floor_le _
    have hfu : (v - m) / w < ((⌊(v - m) / w⌋.toNat : ℕ) : ℚ) + 1 := by
      rw [hi₀q]; exact Int.lt_floor_add_one _
    have hi₀ne : ⌊(v - m) / w⌋.toNat ≠ k - 1 := by
      intro h
      rw [h, Nat.cast_sub hk] at hfl
      push_cast at hfl
      linarith
    have hi₀k : ⌊(v - m) / w⌋.toNat < k := by
      have h1 : ((⌊(v - m) / w⌋.toNat : ℕ) : ℚ) < (k : ℚ) := by linarith
      exact_mod_cast h1
    refine ⟨⌊(v - m) / w⌋.toNat, ?_⟩
    ext i
    simp only [Finset.mem_filter, Finset.mem_range, Finset.mem_singleton]
    constructor
    · rintro ⟨hik, hen⟩
      by_cases hne : i = k - 1
      · subst hne
        obtain ⟨h1, _⟩ := (enClase_last_iff m w hw k hk v).mp hen
        linarith
      · obtain ⟨h1, h2⟩ := (enClase_not_last_iff m w hw k i hne v).mp hen
        have hfe : ⌊(v - m) / w⌋ = (i : ℤ) := by
          rw [Int.floor_eq_iff]
          constructor
          · exact_mod_cast h1
          · push_cast
            exact h2
        omega
    · rintro rfl
      exact ⟨hi₀k,
        (enClase_not_last_iff m w hw k _ hi₀ne v).mpr ⟨hfl, hfu⟩⟩

lemma card_filter_enClase_zero (m : ℚ) (k : ℕ) (hk : 1 ≤ k) :
    ((Finset.range k).filter (fun i => enClase m 0 k i m = true)).card = 1 := by
  rw [Finset.card_eq_one]
  refine ⟨k - 1, ?_⟩
  ext i
  simp only [Finset.mem_filter, Finset.mem_range, Finset.mem_singleton]
  constructor
  · rintro ⟨hik, hen⟩
    by_contra hne
    simp only [enClase, if_neg hne, Bool.and_eq_true, decide_eq_true_eq] at hen
    obtain ⟨_, h2⟩ := hen
    simp at h2
  · rintro rfl
    refine ⟨by omega, ?_⟩
    simp [enClase]

lemma sum_countP_eq_length {α : Type} (p : ℕ → α → Bool) (k : ℕ) (l : List α)
    (h : ∀ v ∈ l, ((Finset.range k).filter (fun i => p i v = true)).card = 1) :
    ∑ i in Finset.range k, l.countP (p i) = l.length := by
  induction l with
  | nil => simp
  | cons x xs ih =>
    have hx := h x (List.mem_cons_self x xs)
    have hxs := ih (fun v hv => h v (List.mem_cons_of_mem x hv))
    simp only [List.countP_cons, List.length_cons]
    rw [Finset.sum_add_distrib, hxs, Finset.card_filter] at *
    omega

lemma amplitud_cancel (datos : List ℚ) (k : ℕ) (hk : 1 ≤ k) :
    listMin datos + k * amplitud datos k = listMax datos := by
  have hk0 : (k : ℚ) ≠ 0 := Nat.cast_ne_zero.mpr (by omega)
  rw [amplitud]
  field_simp

lemma suma_frecuencias (datos : List ℚ) (k : ℕ) (hd : datos ≠ [])
    (hk : 1 ≤ k) :
    ∑ i in Finset.range k, frecuencia datos k i = datos.length := by
  simp only [frecuencia]
  apply sum_countP_eq_length (fun i => enIntervalo datos k i)
  intro v hv
  have h1 : listMin datos ≤ v := listMin_le datos v hv
  have h2 : v ≤ listMax datos := le_listMax datos v hv
  rcases eq_or_lt_of_le (amplitud_nonneg datos k hd) with hw | hw
  · have hk0 : (k : ℚ) ≠ 0 := Nat.cast_ne_zero.mpr (by omega)
    have hMm : listMax datos - listMin datos = 0 := by
      rcases (div_eq_zero_iff).mp hw.symm with h | h
      · exact h
      · exact absurd h hk0
    have hvm : v = listMin datos := by
      have := sub_eq_zero.mp hMm
      linarith
    have hzero : amplitud datos k = 0 := hw.symm
    simp only [enIntervalo, hzero, hvm]
    exact card_filter_enClase_zero (listMin datos) k hk
  · refine card_filter_enClase_pos (listMin datos) (amplitud datos k) hw k hk v
      h1 ?_
    rw [amplitud_cancel datos k hk]
    exact h2

lemma sum_map_range {M : Type} [AddCommMonoid M] (f : ℕ → M) (k : ℕ) :
    ((List.range k).map f).sum = ∑ i in Finset.range k, f i := by
  induction k with
  | zero => simp
  | succ n ih =>
    rw [List.range_succ, List.map_append, List.sum_append,
      Finset.sum_range_succ, ih]
    simp

lemma map_range_getLast {β : Type} (f : ℕ → β) (k : ℕ) (hk : 1 ≤ k) :
    ((List.range k).map f).getLast? = some (f (k - 1)) := by
  obtain ⟨n, rfl⟩ : ∃ n, k = n + 1 := ⟨k - 1, by omega⟩
  rw [List.range_succ, List.map_append]
  simp

/-- C2: for a non-empty series and any class count of at least 1 (the
Sturges default always is, by `regla_de_sturges`), the absolute frequencies
of the table sum to the series length, the last cumulative absolute
frequency is the series length, and the last cumulative relative frequency
is exactly 1 (exact arithmetic standing for the floating tolerance). -/
theorem invariantes_tabla (datos : List ℚ) (k : ℕ) (hd : datos ≠ [])
    (hk : 1 ≤ k) :
    ((tablaFrecuencias datos k).map (fun I => I.fi)).sum = datos.length ∧
    ((tablaFrecuencias datos k).map (fun I => I.Fi)).getLast? =
      some datos.length ∧
    ((tablaFrecuencias datos k).map (fun I => I.Hi)).getLast? = some 1 := by
  have hsum := suma_frecuencias datos k hd hk
  have hn0 : (datos.length : ℚ) ≠ 0 := by
    simpa [List.length_eq_zero] using hd
  have hfi : (tablaFrecuencias datos k).map (fun I => I.fi) =
      (List.range k).map (fun i => frecuencia datos k i) := by
    simp [tablaFrecuencias, List.map_map]
  have hFi : (tablaFrecuencias datos k).map (fun I => I.Fi) =
      (List.range k).map (fun i => frecuenciaAcumulada datos k i) := by
    simp [tablaFrecuencias, List.map_map]
  have hHi : (tablaFrecuencias datos k).map (fun I => I.Hi) =
      (List.range k).map (fun i => ((List.range (i + 1)).map
        (fun j => (frecuencia datos k j : ℚ) / datos.length)).sum) := by
    simp [tablaFrecuencias, List.map_map]
  refine ⟨?_, ?_, ?_⟩
  · rw [hfi, sum_map_range, hsum]
  · rw [hFi, map_range_getLast _ k hk]
    congr 1
    rw [frecuenciaAcumulada, sum_map_range,
      show k - 1 + 1 = k from by omega, hsum]
  · rw [hHi, map_range_getLast _ k hk]
    congr 1
    rw [sum_map_range, show k - 1 + 1 = k from by omega, ← Finset.sum_div]
    rw [show ∑ i in Finset.range k, (frecuencia datos k i : ℚ) =
      ((∑ i in Finset.range k, frecuencia datos k i : ℕ) : ℚ) from by push_cast; rfl]
    rw [hsum, div_self hn0]

/-- Witness instantiating `invariantes_tabla` at the series `[1, 2, 3]`
with two classes. -/
theorem invariantes_tabla_testigo :
    ((tablaFrecuencias [1, 2, 3] 2).map (fun I => I.fi)).sum =
      List.length [(1 : ℚ), 2, 3] ∧
    ((tablaFrecuencias [1, 2, 3] 2).map (fun I => I.Fi)).getLast? =
      some (List.length [(1 : ℚ), 2, 3]) ∧
    ((tablaFrecuencias [1, 2, 3] 2).map (fun I => I.Hi)).getLast? = some 1 :=
  invariantes_tabla [1, 2, 3] 2 (by simp) (by norm_num)

/-! The degenerate case of a constant series: every interval collapses to
`[c, c]` and only the last one counts anything. -/

lemma frecuencia_constante_no_ultima (datos : List ℚ) (c : ℚ) (k i : ℕ)
    (hd : datos ≠ []) (hall : ∀ v ∈ datos, v = c) (hi : i ≠ k - 1) :
    frecuencia datos k i = 0 := by
  have hmin : listMin datos = c := hall _ (listMin_mem datos hd)
  have hmax : listMax datos = c := hall _ (listMax_mem datos hd)
  have hamp : amplitud datos k = 0 := by rw [amplitud, hmin, hmax]; simp
  rw [frecuencia, List.countP_eq_zero]
  intro v hv
  rw [hall v hv]
  simp [enIntervalo, hamp, hmin, enClase, if_neg hi]

lemma frecuencia_constante_ultima (datos : List ℚ) (c : ℚ) (k : ℕ)
    (hd : datos ≠ []) (hall : ∀ v ∈ datos, v = c) :
    frecuencia datos k (k - 1) = datos.length := by
  have hmin : listMin datos = c := hall _ (listMin_mem datos hd)
  have hmax : listMax datos = c := hall _ (listMax_mem datos hd)
  have hamp : amplitud datos k = 0 := by rw [amplitud, hmin, hmax]; simp
  rw [frecuencia, List.countP_eq_length]
  intro v hv
  rw [hall v hv]
  simp [enIntervalo, hamp, hmin, enClase]

/-- C10: on a constant series (`range == 0`) with class count `k > 1`, the
builder still returns `k` intervals, each degenerate with both bounds equal
to the common value; every interval except the last has absolute frequency
0, the last has absolute frequency `n`, and the frequency-sum invariant
still holds. -/
theorem tabla_serie_constante (datos : List ℚ) (c : ℚ) (k : ℕ)
    (hd : datos ≠ []) (hall : ∀ v ∈ datos, v = c) (hk : 1 < k) :
    (tablaFrecuencias datos k).length = k ∧
    (tablaFrecuencias datos k).map (fun I => (I.li, I.ls)) =
      List.replicate k (c, c) ∧
    (tablaFrecuencias datos k).map (fun I => I.fi) =
      List.replicate (k - 1) 0 ++ [datos.length] ∧
    ((tablaFrecuencias datos k).map (fun I => I.fi)).sum = datos.length := by
  have hmin : listMin datos = c := hall _ (listMin_mem datos hd)
  have hmax : listMax datos = c := hall _ (listMax_mem datos hd)
  have hamp : amplitud datos k = 0 := by rw [amplitud, hmin, hmax]; simp
  have hbounds : (tablaFrecuencias datos k).map (fun I => (I.li, I.ls)) =
      List.replicate k (c, c) := by
    apply List.eq_replicate_iff.mpr
    refine ⟨by simp [tablaFrecuencias], ?_⟩
    intro b hb
    simp only [tablaFrecuencias, List.map_map, List.mem_map,
      List.mem_range] at hb
    obtain ⟨i, _, rfl⟩ := hb
    simp [Function.comp, limiteInferior, limiteSuperior, hamp, hmin]
  have hfi : (tablaFrecuencias datos k).map (fun I => I.fi) =
      List.replicate (k - 1) 0 ++ [datos.length] := by
    have hmapfi : (tablaFrecuencias datos k).map (fun I => I.fi) =
        (List.range k).map (fun i => frecuencia datos k i) := by
      simp [tablaFrecuencias, List.map_map]
    have hsplit : List.range k = List.range (k - 1) ++ [k - 1] := by
      conv_lhs => rw [show k = (k - 1) + 1 from by omega]
      exact List.range_succ (k - 1)
    rw [hmapfi, hsplit, List.map_append]
    congr 1
    · apply List.eq_replicate_iff.mpr
      refine ⟨by simp, ?_⟩
      intro b hb
      simp only [List.mem_map, List.mem_range] at hb
      obtain ⟨i, hi, rfl⟩ := hb
      exact frecuencia_constante_no_ultima datos c k i hd hall (by omega)
    · simp only [List.map_cons, List.map_nil]
      rw [frecuencia_constante_ultima datos c k hd hall]
  refine ⟨by simp [tablaFrecuencias], hbounds, hfi, ?_⟩
  rw [hfi]
  simp

/-- Witness instantiating `tabla_serie_constante` at the series `[7, 7]`
with two classes. -/
theorem tabla_serie_constante_testigo :
    (tablaFrecuencias [7, 7] 2).length = 2 ∧
    (tablaFrecuencias [7, 7] 2).map (fun I => (I.li, I.ls)) =
      List.replicate 2 ((7 : ℚ), (7 : ℚ)) ∧
    (tablaFrecuencias [7, 7] 2).map (fun I => I.fi) =
      List.replicate (2 - 1) 0 ++ [List.length [(7 : ℚ), 7]] ∧
    ((tablaFrecuencias [7, 7] 2).map (fun I => I.fi)).sum =
      List.length [(7 : ℚ), 7] :=
  tabla_serie_constante [7, 7] 7 2 (by simp)
    (by intro v hv; rcases List.mem_cons.mp hv with rfl | hv2
        · rfl
        · rcases List.mem_cons.mp hv2 with rfl | hv3
          · rfl
          · cases hv3)
    (by norm_num)

/-- C3 as written fails on the code: for the constant series `[5, 5, 5]` the
builder does not collapse to a single degenerate interval; Sturges' rule
gives 3 classes and the table has 3 (degenerate) intervals, not 1. -/
theorem caso_degenerado_contraejemplo :
    calcular_tabla_frecuencias [5, 5, 5] none =
      .ok (tablaFrecuencias [5, 5, 5] 3) ∧
    (tablaFrecuencias [5, 5, 5] 3).length ≠ 1 := by
  constructor
  · rw [calcular_tabla_frecuencias, numClasesPorDefecto]
    norm_num [sturges_tres, Except.map]
  · simp [tablaFrecuencias]

/-- C3 amended: there is no single-interval special case for `range == 0`;
the builder produces as many degenerate intervals `[min, min]` as the class
count asks for, all empty except the last, which holds every observation.
For `[5, 5, 5]` Sturges' rule gives 3 classes and the table is three copies
of `[5, 5]` with absolute frequencies `[0, 0, 3]`. -/
theorem caso_degenerado_corregido :
    calcular_tabla_frecuencias [5, 5, 5] none =
      .ok (tablaFrecuencias [5, 5, 5] 3) ∧
    (tablaFrecuencias [5, 5, 5] 3).map (fun I => (I.li, I.ls, I.fi)) =
      [(5, 5, 0), (5, 5, 0), (5, 5, 3)] := by
  constructor
  · rw [calcular_tabla_frecuencias, numClasesPorDefecto]
    norm_num [sturges_tres, Except.map]
  · norm_num [tablaFrecuencias, List.range_succ, frecuencia,
      enIntervalo, enClase, limiteInferior, limiteSuperior, amplitud,
      listMin, listMax, min_def, max_def, List.countP, List.countP.go]

/-! The descriptive-statistics calculator
`calcular_estadisticas_descriptivas` (lines 265-284). Library calls on the
pandas series are embedded by their documented semantics; results that are
`NaN` in Python are embedded as `none`. -/

/-- Ascending sort of the series, as used internally by the pandas
order statistics (`median`, `quantile`, `mode`). -/
def sortAsc (l : List ℚ) : List ℚ :=
  List.insertionSort (fun a b => a ≤ b) l

/-- `datos.mean()`: the arithmetic average (junk value on `[]`, where pandas
returns NaN; the record builder guards that case). -/
def mediaVal (datos : List ℚ) : ℚ :=
  datos.sum / datos.length

/-- `datos.quantile(q)` with the default linear interpolation: with the
sorted values `s` and `h = q * (n - 1)`, the result is
`s[floor h] + (h - floor h) * (s[floor h + 1] - s[floor h])` (the second
term vanishing when `h` is integral). -/
def cuantil (datos : List ℚ) (q : ℚ) : ℚ :=
  let s := sortAsc datos
  let h := q * ((s.length : ℚ) - 1)
  s.getD (⌊h⌋).toNat 0 +
    (h - ⌊h⌋) * (s.getD ((⌊h⌋).toNat + 1) 0 - s.getD (⌊h⌋).toNat 0)

/-- `datos.median()`: middle order statistic for odd length, average of the
two middle ones for even length. -/
def medianaVal (datos : List ℚ) : ℚ :=
  let s := sortAsc datos
  if s.length % 2 = 1 then s.getD (s.length / 2) 0
  else (s.getD (s.length / 2 - 1) 0 + s.getD (s.length / 2) 0) / 2

/-- `datos.mode()`: every value of maximal multiplicity, in ascending order
(empty only for an empty series). -/
def modas (datos : List ℚ) : List ℚ :=
  ((sortAsc datos).dedup).filter
    (fun v => datos.all (fun w => decide (datos.count w ≤ datos.count v)))

/-- `datos.var()` with the default `ddof=1`: sum of squared deviations over
`n - 1`. For `n < 2` the quotient is `0/0` (or an empty mean), which pandas
reports as NaN: embedded as `none`. -/
def varianzaVal (datos : List ℚ) : Option ℚ :=
  if datos.length < 2 then none
  else some ((datos.map (fun x => (x - mediaVal datos) ^ 2)).sum /
    ((datos.length : ℚ) - 1))

/-- `datos.std()`: the square root of the sample variance, NaN exactly when
the variance is NaN. -/
noncomputable def desviacionEstandar (datos : List ℚ) : Option ℝ :=
  (varianzaVal datos).map (fun q => Real.sqrt (q : ℝ))

/-- The `stats` dictionary returned at lines 269-282 (the standard
deviation is kept separate in `desviacionEstandar`, as it lives in `ℝ`). -/
structure Estadisticas where
  media : Option ℚ
  mediana : Option ℚ
  moda : Option ℚ
  varianza : Option ℚ
  minimo : Option ℚ
  maximo : Option ℚ
  rango : Option ℚ
  q1 : Option ℚ
  q2 : Option ℚ
  q3 : Option ℚ
  iqr : Option ℚ
deriving DecidableEq

/-- The calculator `calcular_estadisticas_descriptivas` (lines 265-284):
no input validation; every field is a library call on the cleaned series.
The mode is `datos.mode().iloc[0] if len(datos.mode()) > 0 else
datos.mean()` (line 272), everything else is the direct pandas call, with
NaN-on-empty embedded as `none`. -/
def calcular_estadisticas_descriptivas (datos : List ℚ) : Estadisticas where
  media := if datos.isEmpty then none else some (mediaVal datos)
  mediana := if datos.isEmpty then none else some (medianaVal datos)
  moda := match modas datos with
    | [] => if datos.isEmpty then none else some (mediaVal datos)
    | v :: _ => some v
  varianza := varianzaVal datos
  minimo := if datos.isEmpty then none else some (listMin datos)
  maximo := if datos.isEmpty then none else some (listMax datos)
  rango := if datos.isEmpty then none else
    some (listMax datos - listMin datos)
  q1 := if datos.isEmpty then none else some (cuantil datos (1 / 4))
  q2 := if datos.isEmpty then none else some (cuantil datos (1 / 2))
  q3 := if datos.isEmpty then none else some (cuantil datos (3 / 4))
  iqr := if datos.isEmpty then none else
    some (cuantil datos (3 / 4) - cuantil datos (1 / 4))

/-- C4 as written fails on the code: neither component defines or raises an
`InvalidInputError`. With an explicit class count of 0 (below the supposed
minimum of 1) the builder happily returns an empty table, and on an empty
series the statistics calculator returns NaN statistics instead of
failing. -/
theorem validacion_contraejemplo :
    calcular_tabla_frecuencias [1, 2] (some 0) = .ok [] ∧
    (calcular_estadisticas_descriptivas []).media = none := by
  constructor
  · rw [calcular_tabla_frecuencias]
    simp [tablaFrecuencias]
  · rfl

/-- C4 amended: the code has no `InvalidInputError` and performs no input
validation. An explicitly supplied class count below 1 (here 0) yields an
empty table with no error; an empty series with the default class count
fails with `OverflowError` (from `int(np.ceil(np.log10(0)))`), not with a
dedicated error; and the statistics calculator on an empty series returns
NaN fields without raising. -/
theorem sin_validacion_de_entradas :
    (∀ datos : List ℚ, calcular_tabla_frecuencias datos (some 0) = .ok []) ∧
    calcular_tabla_frecuencias [] none = .error .overflowError ∧
    (calcular_estadisticas_descriptivas []).media = none ∧
    (calcular_estadisticas_descriptivas []).varianza = none ∧
    (calcular_estadisticas_descriptivas []).moda = none := by
  refine ⟨?_, ?_, rfl, rfl, rfl⟩
  · intro datos
    rw [calcular_tabla_frecuencias]
    simp [tablaFrecuencias]
  · rw [calcular_tabla_frecuencias, numClasesPorDefecto]
    simp [Except.map]

/-- C6 as written fails on the code: for the single-element series `[5]`
the sample variance uses `ddof=1`, so the denominator is `n - 1 = 0` and
pandas returns NaN (embedded `none`), not 0; likewise the standard
deviation. -/
theorem varianza_unitaria_contraejemplo :
    (calcular_estadisticas_descriptivas [5]).varianza ≠ some 0 ∧
    desviacionEstandar [5] ≠ some 0 := by
  constructor
  · simp [calcular_estadisticas_descriptivas, varianzaVal]
  · simp [desviacionEstandar, varianzaVal]

/-- C6 amended: on any single-element series the calculator raises no error
and returns NaN (not 0) for both the sample variance and the standard
deviation, `ddof=1` making the denominator zero. -/
theorem varianza_serie_unitaria (datos : List ℚ) (h : datos.length = 1) :
    (calcular_estadisticas_descriptivas datos).varianza = none ∧
    desviacionEstandar datos = none := by
  have hv : varianzaVal datos = none := by
    rw [varianzaVal, if_pos (by omega)]
  refine ⟨hv, ?_⟩
  rw [desviacionEstandar, hv]
  rfl

/-- Witness instantiating `varianza_serie_unitaria` at the series `[5]`. -/
theorem varianza_serie_unitaria_testigo :
    (calcular_estadisticas_descriptivas [5]).varianza = none ∧
    desviacionEstandar [5] = none :=
  varianza_serie_unitaria [5] rfl

/-! Facts about the mode list. -/

lemma sortAsc_sorted (l : List ℚ) : (sortAsc l).Sorted (fun a b => a ≤ b) :=
  List.sorted_insertionSort _ l

lemma sortAsc_perm (l : List ℚ) : List.Perm (sortAsc l) l :=
  List.perm_insertionSort _ l

lemma mem_sortAsc (l : List ℚ) (x : ℚ) : x ∈ sortAsc l ↔ x ∈ l :=
  (sortAsc_perm l).mem_iff

lemma modas_sorted (datos : List ℚ) :
    (modas datos).Sorted (fun a b => a ≤ b) :=
  List.Pairwise.sublist
    ((List.filter_sublist _).trans (List.dedup_sublist _))
    (sortAsc_sorted datos)

lemma mem_modas (datos : List ℚ) (v : ℚ) :
    v ∈ modas datos ↔
      v ∈ datos ∧ ∀ w ∈ datos, datos.count w ≤ datos.count v := by
  simp [modas, List.mem_filter, List.mem_dedup, mem_sortAsc, List.all_eq_true]

lemma modas_ne_nil (datos : List ℚ) (hd : datos ≠ []) : modas datos ≠ [] := by
  obtain ⟨m, hm⟩ : ∃ m, datos.argmax (fun v => datos.count v) = some m := by
    cases h : datos.argmax (fun v => datos.count v) with
    | none => exact absurd (List.argmax_eq_none.mp h) hd
    | some m => exact ⟨m, rfl⟩
  have hmem : m ∈ datos := List.argmax_mem hm
  have hbound : ∀ w ∈ datos, datos.count w ≤ datos.count m := fun w hw =>
    le_of_not_lt (List.not_lt_of_mem_argmax hw hm)
  exact List.ne_nil_of_mem ((mem_modas datos m).mpr ⟨hmem, hbound⟩)

/-- C5 as written fails on the code: on the series `[1, 2, 4]` no value
repeats, yet the Mode is not the mean. `datos.mode()` is then the whole
series in ascending order, never empty, so `iloc[0]` returns the smallest
value 1 while the mean is 7/3; the documented fallback to the mean is dead
code for non-empty input. -/
theorem moda_contraejemplo :
    List.Nodup [(1 : ℚ), 2, 4] ∧
    (calcular_estadisticas_descriptivas [1, 2, 4]).moda = some 1 ∧
    (calcular_estadisticas_descriptivas [1, 2, 4]).media = some (7 / 3) ∧
    (calcular_estadisticas_descriptivas [1, 2, 4]).moda ≠
      (calcular_estadisticas_descriptivas [1, 2, 4]).media := by
  refine ⟨by norm_num, ?_, ?_, ?_⟩ <;>
    norm_num [calcular_estadisticas_descriptivas, modas, sortAsc, mediaVal,
      List.insertionSort, List.orderedInsert, List.dedup, List.all,
      List.count_cons, List.filter]

/-- C5 amended: for a non-empty series the Mode is the first (smallest)
value of maximal multiplicity: it belongs to the series, no value occurs
more often, and it is the least value among those of maximal multiplicity.
When no value repeats every value is modal, so the Mode is the series
minimum, not the mean. -/
theorem moda_es_minima_mas_frecuente (datos : List ℚ) (hd : datos ≠ []) :
    (calcular_estadisticas_descriptivas datos).moda =
      some ((modas datos).headI) ∧
    (modas datos).headI ∈ datos ∧
    (∀ w ∈ datos, datos.count w ≤ datos.count ((modas datos).headI)) ∧
    (∀ v ∈ datos, (∀ w ∈ datos, datos.count w ≤ datos.count v) →
      (modas datos).headI ≤ v) ∧
    (datos.Nodup → (modas datos).headI = listMin datos) := by
  obtain ⟨v, t, hvt⟩ := List.exists_cons_of_ne_nil (modas_ne_nil datos hd)
  have hhead : (modas datos).headI = v := by rw [hvt]; rfl
  have hvmem : v ∈ modas datos := by rw [hvt]; exact List.mem_cons_self v t
  have hsorted := modas_sorted datos
  rw [hvt] at hsorted
  have hleast : ∀ u ∈ modas datos, v ≤ u := by
    intro u hu
    rw [hvt] at hu
    rcases List.mem_cons.mp hu with rfl | hu
    · exact le_refl u
    · exact (List.sorted_cons.mp hsorted).1 u hu
  obtain ⟨hvdat, hvmax⟩ := (mem_modas datos v).mp hvmem
  rw [hhead]
  refine ⟨?_, hvdat, hvmax, ?_, ?_⟩
  · simp only [calcular_estadisticas_descriptivas, hvt]
  · intro u hu hub
    exact hleast u ((mem_modas datos u).mpr ⟨hu, hub⟩)
  · intro hnd
    have hminmem : listMin datos ∈ datos := listMin_mem datos hd
    have hminmodal : listMin datos ∈ modas datos := by
      refine (mem_modas datos _).mpr ⟨hminmem, ?_⟩
      intro w hw
      rw [List.count_eq_one_of_mem hnd hw, List.count_eq_one_of_mem hnd hminmem]
    exact le_antisymm (hleast _ hminmodal) (listMin_le datos v hvdat)

/-- Witness instantiating `moda_es_minima_mas_frecuente` at the series
`[2, 4, 4]`. -/
theorem moda_es_minima_mas_frecuente_testigo :
    (calcular_estadisticas_descriptivas [2, 4, 4]).moda =
      some ((modas [2, 4, 4]).headI) ∧
    (modas [2, 4, 4]).headI ∈ [(2 : ℚ), 4, 4] ∧
    (∀ w ∈ [(2 : ℚ), 4, 4],
      List.count w [(2 : ℚ), 4, 4] ≤
        List.count ((modas [2, 4, 4]).headI) [(2 : ℚ), 4, 4]) ∧
    (∀ v ∈ [(2 : ℚ), 4, 4],
      (∀ w ∈ [(2 : ℚ), 4, 4],
        List.count w [(2 : ℚ), 4, 4] ≤ List.count v [(2 : ℚ), 4, 4]) →
      (modas [2, 4, 4]).headI ≤ v) ∧
    (List.Nodup [(2 : ℚ), 4, 4] → (modas [2, 4, 4]).headI = listMin [2, 4, 4]) :=
  moda_es_minima_mas_frecuente [2, 4, 4] (by simp)

/-! Monotonicity of the linear-interpolation quantile. -/

lemma getD_eq_get (l : List ℚ) (i : ℕ) (h : i < l.length) :
    l.getD i 0 = l.get ⟨i, h⟩ := by
  simp [List.getD_eq_getElem?_getD, List.getElem?_eq_getElem h]

lemma sorted_getD_mono (s : List ℚ) (hs : s.Sorted (fun a b => a ≤ b))
    (i j : ℕ) (hij : i ≤ j) (hj : j < s.length) :
    s.getD i 0 ≤ s.getD j 0 := by
  have hi : i < s.length := lt_of_le_of_lt hij hj
  rw [getD_eq_get s i hi, getD_eq_get s j hj]
  exact List.Sorted.rel_get_of_le hs (by exact hij)

lemma floor_toNat_cast (h : ℚ) (h0 : 0 ≤ h) :
    (((⌊h⌋).toNat : ℕ) : ℚ) = ((⌊h⌋ : ℤ) : ℚ) := by
  have hz : (((⌊h⌋).toNat : ℕ) : ℤ) = ⌊h⌋ :=
    Int.toNat_of_nonneg (Int.floor_nonneg.mpr h0)
  rw [← hz]
  push_cast
  rfl

lemma floor_toNat_bounds (h : ℚ) (h0 : 0 ≤ h) :
    (((⌊h⌋).toNat : ℕ) : ℚ) ≤ h ∧ h < (((⌊h⌋).toNat : ℕ) : ℚ) + 1 := by
  rw [floor_toNat_cast h h0]
  exact ⟨Int.floor_le h, Int.lt_floor_add_one h⟩

lemma interp_mono (s : List ℚ) (hs : s.Sorted (fun a b => a ≤ b))
    (hn : s ≠ []) (h₁ h₂ : ℚ) (h0 : 0 ≤ h₁) (h12 : h₁ ≤ h₂)
    (hend : h₂ ≤ (s.length : ℚ) - 1) :
    s.getD (⌊h₁⌋).toNat 0 + (h₁ - ((⌊h₁⌋ : ℤ) : ℚ)) *
        (s.getD ((⌊h₁⌋).toNat + 1) 0 - s.getD (⌊h₁⌋).toNat 0) ≤
      s.getD (⌊h₂⌋).toNat 0 + (h₂ - ((⌊h₂⌋ : ℤ) : ℚ)) *
        (s.getD ((⌊h₂⌋).toNat + 1) 0 - s.getD (⌊h₂⌋).toNat 0) := by
  have hlen : 1 ≤ s.length := List.length_pos.mpr hn
  have h0' : 0 ≤ h₂ := le_trans h0 h12
  have hlenq : (1 : ℚ) ≤ (s.length : ℚ) := by exact_mod_cast hlen
  rw [← floor_toNat_cast h₁ h0, ← floor_toNat_cast h₂ h0']
  obtain ⟨ha1, ha2⟩ := floor_toNat_bounds h₁ h0
  obtain ⟨hb1, hb2⟩ := floor_toNat_bounds h₂ h0'
  have hflo : ⌊h₁⌋ ≤ ⌊h₂⌋ := Int.floor_le_floor h12
  obtain ⟨a, ha⟩ : ∃ a : ℕ, a = (⌊h₁⌋).toNat := ⟨_, rfl⟩
  obtain ⟨b, hb⟩ : ∃ b : ℕ, b = (⌊h₂⌋).toNat := ⟨_, rfl⟩
  rw [← ha] at ha1 ha2 ⊢
  rw [← hb] at hb1 hb2 ⊢
  have hfl1 : 0 ≤ ⌊h₁⌋ := Int.floor_nonneg.mpr h0
  have hfl2 : 0 ≤ ⌊h₂⌋ := Int.floor_nonneg.mpr h0'
  have hab : a ≤ b := by omega
  have hbn : b ≤ s.length - 1 := by
    have hq : ((⌊h₂⌋ : ℤ) : ℚ) ≤ (s.length : ℚ) - 1 :=
      le_trans (Int.floor_le h₂) hend
    have hz : ⌊h₂⌋ ≤ (s.length : ℤ) - 1 := by exact_mod_cast hq
    omega
  have hbltn : b < s.length := by omega
  by_cases hc : a = b
  · subst hc
    by_cases hcc : a + 1 < s.length
    · have hd2 : s.getD a 0 ≤ s.getD (a + 1) 0 :=
        sorted_getD_mono s hs a (a + 1) (by omega) hcc
      have hp : (h₁ - (a : ℚ)) * (s.getD (a + 1) 0 - s.getD a 0) ≤
          (h₂ - (a : ℚ)) * (s.getD (a + 1) 0 - s.getD a 0) :=
        mul_le_mul_of_nonneg_right (by linarith) (by linarith)
      linarith
    · have hag : a = s.length - 1 := by omega
      have hcast : ((s.length - 1 : ℕ) : ℚ) = (s.length : ℚ) - 1 := by
        rw [Nat.cast_sub hlen]
        norm_num
      have haq : (a : ℚ) = (s.length : ℚ) - 1 := by rw [hag, hcast]
      have he1 : h₁ = (a : ℚ) := le_antisymm (by linarith) ha1
      have he2 : h₂ = (a : ℚ) := le_antisymm (by linarith) hb1
      rw [he1, he2]
  · have hab' : a < b := lt_of_le_of_ne hab hc
    have han : a + 1 < s.length := by omega
    have hsa : s.getD a 0 ≤ s.getD (a + 1) 0 :=
      sorted_getD_mono s hs a (a + 1) (by omega) han
    have h1 : s.getD a 0 + (h₁ - (a : ℚ)) *
        (s.getD (a + 1) 0 - s.getD a 0) ≤ s.getD (a + 1) 0 := by
      have hp : 0 ≤ (1 - (h₁ - (a : ℚ))) * (s.getD (a + 1) 0 - s.getD a 0) :=
        mul_nonneg (by linarith) (by linarith)
      nlinarith [hp]
    have h2 : s.getD (a + 1) 0 ≤ s.getD b 0 :=
      sorted_getD_mono s hs (a + 1) b (by omega) hbltn
    have h3 : s.getD b 0 ≤ s.getD b 0 + (h₂ - (b : ℚ)) *
        (s.getD (b + 1) 0 - s.getD b 0) := by
      by_cases hcc : b + 1 < s.length
      · have hsb : s.getD b 0 ≤ s.getD (b + 1) 0 :=
          sorted_getD_mono s hs b (b + 1) (by omega) hcc
        have hp : 0 ≤ (h₂ - (b : ℚ)) * (s.getD (b + 1) 0 - s.getD b 0) :=
          mul_nonneg (by linarith) (by linarith)
        linarith
      · have hbg : b = s.length - 1 := by omega
        have hcast : ((s.length - 1 : ℕ) : ℚ) = (s.length : ℚ) - 1 := by
          rw [Nat.cast_sub hlen]
          norm_num
        have he : h₂ = (b : ℚ) := by
          refine le_antisymm ?_ hb1
          rw [hbg, hcast]
          exact hend
        rw [he]
        simp
    linarith

lemma sortAsc_ne_nil (datos : List ℚ) (hd : datos ≠ []) :
    sortAsc datos ≠ [] := by
  intro h
  apply hd
  have hl := (sortAsc_perm datos).length_eq
  rw [h] at hl
  exact List.length_eq_zero.mp hl.symm

lemma cuantil_mono (datos : List ℚ) (hd : datos ≠ []) (q₁ q₂ : ℚ)
    (hq0 : 0 ≤ q₁) (hq12 : q₁ ≤ q₂) (hq1 : q₂ ≤ 1) :
    cuantil datos q₁ ≤ cuantil datos q₂ := by
  have hsne := sortAsc_ne_nil datos hd
  have hlen : 1 ≤ (sortAsc datos).length := List.length_pos.mpr hsne
  have hn1 : 0 ≤ ((sortAsc datos).length : ℚ) - 1 := by
    have hq : (1 : ℚ) ≤ ((sortAsc datos).length : ℚ) := by exact_mod_cast hlen
    linarith
  simp only [cuantil]
  exact interp_mono (sortAsc datos) (sortAsc_sorted datos) hsne
    (q₁ * (((sortAsc datos).length : ℚ) - 1))
    (q₂ * (((sortAsc datos).length : ℚ) - 1))
    (mul_nonneg hq0 hn1)
    (mul_le_mul_of_nonneg_right hq12 hn1)
    (by nlinarith)

lemma medianaVal_eq_cuantil (datos : List ℚ) (hd : datos ≠ []) :
    medianaVal datos = cuantil datos (1 / 2) := by
  have hsne := sortAsc_ne_nil datos hd
  have hlen : 1 ≤ (sortAsc datos).length := List.length_pos.mpr hsne
  simp only [medianaVal, cuantil]
  rcases Nat.even_or_odd ((sortAsc datos).length) with ⟨m, hm⟩ | ⟨m, hm⟩
  · have hm1 : 1 ≤ m := by omega
    rw [hm, if_neg (by omega)]
    have hfloor : ⌊(1 / 2 : ℚ) * (((m + m : ℕ) : ℚ) - 1)⌋ = (m : ℤ) - 1 := by
      apply Int.floor_eq_iff.mpr
      constructor <;> push_cast <;> linarith
    rw [hfloor]
    have htn : ((m : ℤ) - 1).toNat = m - 1 := by omega
    rw [htn]
    have hidx : m - 1 + 1 = m := by omega
    rw [hidx]
    have hdiv : (m + m) / 2 = m := by omega
    rw [hdiv]
    push_cast [Nat.cast_sub hm1]
    ring
  · rw [hm, if_pos (by omega)]
    have hfloor : ⌊(1 / 2 : ℚ) * (((2 * m + 1 : ℕ) : ℚ) - 1)⌋ = (m : ℤ) := by
      apply Int.floor_eq_iff.mpr
      constructor <;> push_cast <;> linarith
    rw [hfloor]
    have htn : ((m : ℤ)).toNat = m := by omega
    rw [htn]
    have hdiv : (2 * m + 1) / 2 = m := by omega
    rw [hdiv]
    push_cast
    ring

/-- C9: the quartiles returned by the calculator are the linear-interpolation
quantiles at 1/4, 1/2 and 3/4 of the sorted series; they are monotone
(`Q1 <= Q2 <= Q3`), the IQR field is exactly `Q3 - Q1` and is non-negative,
and `Q2` coincides with the Median field. -/
theorem consistencia_cuartiles (datos : List ℚ) (hd : datos ≠ []) :
    (calcular_estadisticas_descriptivas datos).q1 =
      some (cuantil datos (1 / 4)) ∧
    (calcular_estadisticas_descriptivas datos).q2 =
      some (cuantil datos (1 / 2)) ∧
    (calcular_estadisticas_descriptivas datos).q3 =
      some (cuantil datos (3 / 4)) ∧
    cuantil datos (1 / 4) ≤ cuantil datos (1 / 2) ∧
    cuantil datos (1 / 2) ≤ cuantil datos (3 / 4) ∧
    (calcular_estadisticas_descriptivas datos).iqr =
      some (cuantil datos (3 / 4) - cuantil datos (1 / 4)) ∧
    0 ≤ cuantil datos (3 / 4) - cuantil datos (1 / 4) ∧
    (calcular_estadisticas_descriptivas datos).q2 =
      (calcular_estadisticas_descriptivas datos).mediana := by
  have hne : datos.isEmpty = false := by
    cases datos with
    | nil => exact absurd rfl hd
    | cons x xs => rfl
  have h14 := cuantil_mono datos hd (1 / 4) (1 / 2) (by norm_num)
    (by norm_num) (by norm_num)
  have h24 := cuantil_mono datos hd (1 / 2) (3 / 4) (by norm_num)
    (by norm_num) (by norm_num)
  refine ⟨?_, ?_, ?_, h14, h24, ?_, by linarith, ?_⟩ <;>
    simp [calcular_estadisticas_descriptivas, hne,
      medianaVal_eq_cuantil datos hd]

/-- Witness instantiating `consistencia_cuartiles` at the series
`[1, 2, 3, 4]`. -/
theorem consistencia_cuartiles_testigo :
    (calcular_estadisticas_descriptivas [1, 2, 3, 4]).q1 =
      some (cuantil [1, 2, 3, 4] (1 / 4)) ∧
    (calcular_estadisticas_descriptivas [1, 2, 3, 4]).q2 =
      some (cuantil [1, 2, 3, 4] (1 / 2)) ∧
    (calcular_estadisticas_descriptivas [1, 2, 3, 4]).q3 =
      some (cuantil [1, 2, 3, 4] (3 / 4)) ∧
    cuantil [1, 2, 3, 4] (1 / 4) ≤ cuantil [1, 2, 3, 4] (1 / 2) ∧
    cuantil [1, 2, 3, 4] (1 / 2) ≤ cuantil [1, 2, 3, 4] (3 / 4) ∧
    (calcular_estadisticas_descriptivas [1, 2, 3, 4]).iqr =
      some (cuantil [1, 2, 3, 4] (3 / 4) - cuantil [1, 2, 3, 4] (1 / 4)) ∧
    0 ≤ cuantil [1, 2, 3, 4] (3 / 4) - cuantil [1, 2, 3, 4] (1 / 4) ∧
    (calcular_estadisticas_descriptivas [1, 2, 3, 4]).q2 =
      (calcular_estadisticas_descriptivas [1, 2, 3, 4]).mediana :=
  consistencia_cuartiles [1, 2, 3, 4] (by simp)

end AnalisisEstadistico
